import Mathlib

/-!
Verification development for the GoAIAgent repository (src/main.go).

The Go program is shallowly embedded: Go byte strings that are inspected
character by character (file contents, shell commands, search patterns) are
modelled as `List Char`; opaque string payloads (user text, tool names,
messages) stay `String`.  Filesystem state is an explicit map from paths to
optional contents.  The model definitions follow the Go source function by
function; each definition's doc comment names the Go symbol it embeds.
-/

namespace GoAIAgent

/-- Model of Go `strings.HasPrefix` on rune lists: `isPre p s` is true iff
`p` is a prefix of `s`. -/
def isPre : List Char → List Char → Bool
  | [], _ => true
  | _ :: _, [] => false
  | a :: as, b :: bs => a == b && isPre as bs

/-- Model of Go `strings.Contains s sub`: `containsSub sub s` is true iff
`sub` occurs as a contiguous substring of `s`. -/
def containsSub (sub : List Char) : List Char → Bool
  | [] => isPre sub []
  | c :: rest => isPre sub (c :: rest) || containsSub sub rest

/-- `OccursIn pat s` states that `pat` occurs as a contiguous substring of
`s`. -/
def OccursIn (pat s : List Char) : Prop := ∃ a b, s = a ++ pat ++ b

/-- Model of Go `strings.Replace(s, old, new, -1)`: replaces every
non-overlapping occurrence of `old` in `s` by `new`, scanning left to right;
an empty `old` inserts `new` before every rune and at the end. -/
def replaceAll (s old new : List Char) : List Char :=
  if old = [] then new ++ s.flatMap (fun c => c :: new)
  else
    match s with
    | [] => []
    | c :: rest =>
      if isPre old (c :: rest) then
        new ++ replaceAll (List.drop old.length (c :: rest)) old new
      else
        c :: replaceAll rest old new
termination_by s.length
decreasing_by
  · simp only [List.length_drop, List.length_cons]
    have : 1 ≤ old.length := by
      cases old with
      | nil => simp_all
      | cons _ _ => simp
    omega
  · simp

/-- Number of non-overlapping occurrences of `old` that
`replaceAll` replaces, following the same left-to-right scan. -/
def countOcc (s old : List Char) : Nat :=
  if old = [] then 0
  else
    match s with
    | [] => 0
    | c :: rest =>
      if isPre old (c :: rest) then
        1 + countOcc (List.drop old.length (c :: rest)) old
      else
        countOcc rest old
termination_by s.length
decreasing_by
  · simp only [List.length_drop, List.length_cons]
    have : 1 ≤ old.length := by
      cases old with
      | nil => simp_all
      | cons _ _ => simp
    omega
  · simp

/-- The fixed denylist of the command-execution guardrail, exactly as in the
Go source: note the trailing spaces in `"rm "` and `"kill "`. -/
def disallowed : List (List Char) :=
  ["rm ", "shutdown", "reboot", "kill ", "passwd", "chown", "chmod", "sudo",
    "su"].map String.toList

instance {α β : Type} [DecidableEq α] [DecidableEq β] :
    DecidableEq (Except α β) := fun x y =>
  match x, y with
  | .ok a, .ok b =>
    if h : a = b then .isTrue (by rw [h]) else .isFalse (by simp [h])
  | .error a, .error b =>
    if h : a = b then .isTrue (by rw [h]) else .isFalse (by simp [h])
  | .ok _, .error _ => .isFalse (by simp)
  | .error _, .ok _ => .isFalse (by simp)

/-- Outcome of one invocation of the command-execution tool.  `result` is the
Go return value `(string, error)`; `executed` records whether control reached
`exec.Command` (it is the only instrumentation added to the embedding: it is
`true` exactly on the code path that runs the shell). -/
structure CmdOutcome where
  result : Except String String
  executed : Bool
deriving DecidableEq

/-- Model of `CommandExecution` (src/main.go) after JSON decoding.
`confirm` is the operator's answer read by `fmt.Scanln`; `run cmd` is the
outcome of `exec.Command("bash", "-c", cmd).CombinedOutput()`, as the pair of
the combined output and the optional error message.  Go's byte-oriented
`len` and Unicode `strings.ToLower` are modelled at rune granularity. -/
def CommandExecution (confirm : List Char) (run : List Char → String × Option String)
    (cmd : List Char) : CmdOutcome :=
  if cmd = [] then ⟨.error "command cannot be empty", false⟩
  else if disallowed.any (fun d => containsSub d (cmd.map Char.toLower)) then
    ⟨.error "command contains disallowed operation", false⟩
  else if containsSub "cd ".toList (cmd.map Char.toLower) then
    ⟨.error "changing directories is not allowed", false⟩
  else if 256 < cmd.length then
    ⟨.error "command too long", false⟩
  else if containsSub "/".toList (cmd.map Char.toLower)
      || containsSub "..".toList (cmd.map Char.toLower) then
    ⟨.error "command cannot access files outside the current working directory",
      false⟩
  else if confirm.map Char.toLower ≠ "yes".toList then
    ⟨.error "command execution cancelled by user", false⟩
  else
    match run cmd with
    | (output, none) => ⟨.ok output, true⟩
    | (output, some e) =>
      ⟨.error ("command execution failed: " ++ e ++ "\nOutput: " ++ output),
        true⟩

/-- Filesystem model: a map from path strings to optional file contents
(rune lists).  `none` means the path does not exist, so a read fails with the
not-exist error — the only read failure represented; writes always succeed
in the model. -/
def FS := String → Option (List Char)

/-- Model of `createNewFile` (src/main.go): `os.MkdirAll` is implicit in the
flat path-to-contents map, and `os.WriteFile` always succeeds.  Returns the
Go result `(string, error)` together with the filesystem after the call. -/
def createNewFile (fs : FS) (filePath : String) (content : List Char) :
    Except String String × FS :=
  (.ok ("Successfully created file " ++ filePath),
    fun p => if p = filePath then some content else fs p)

/-- Model of `EditFile` (src/main.go) after JSON decoding of its input. -/
def EditFile (fs : FS) (path : String) (old new : List Char) :
    Except String String × FS :=
  if path = "" ∨ old = new then (.error "invalid input parameters", fs)
  else
    match fs path with
    | none =>
      if old = [] then createNewFile fs path new
      else (.error ("open " ++ path ++ ": no such file or directory"), fs)
    | some content =>
      if replaceAll content old new = content ∧ old ≠ [] then
        (.error "old_str not found in file", fs)
      else
        (.ok "OK",
          fun p => if p = path then some (replaceAll content old new) else fs p)

/-- Directory tree node for the filesystem walked by `list_files`: a file,
or a directory with its named children (listed in the sorted order in which
`filepath.Walk` visits them). -/
inductive FNode
  | file : FNode
  | dir (children : List (List Char × FNode)) : FNode

/-- Model of the `filepath.Walk` callback loop in `ListFiles` (src/main.go):
every visited path except the root `"."` is appended relative to the walk
root, depth first, with directories suffixed by `/`. -/
def walkFrom (pre : List Char) : List (List Char × FNode) → List (List Char)
  | [] => []
  | (n, .file) :: rest => (pre ++ n) :: walkFrom pre rest
  | (n, .dir cs) :: rest =>
    (pre ++ n ++ ['/']) :: (walkFrom (pre ++ n ++ ['/']) cs ++ walkFrom pre rest)

/-- Modelled from the spec: the current directory's "immediate entries as a
structured listing" — one entry per direct child only, directories marked
with a trailing slash, in listed order.  Comparison definition for C9,
written from the spec's words. -/
def immediateEntries : List (List Char × FNode) → List (List Char)
  | [] => []
  | (n, .file) :: rest => n :: immediateEntries rest
  | (n, .dir _) :: rest => (n ++ ['/']) :: immediateEntries rest

/-- Model of `ListFiles` (src/main.go) after JSON decoding: `resolve` maps a
directory path to its subtree when the walk can read it; an empty input path
defaults to `"."`.  The source marshals the collected slice to JSON; the
model returns the slice itself. -/
def ListFiles (resolve : String → Option (List (List Char × FNode)))
    (p : String) : Except String (List (List Char)) :=
  match resolve (if p = "" then "." else p) with
  | none => .error "walk error"
  | some es => .ok (walkFrom [] es)

/-- Parsed JSON value, modelling the `json.RawMessage` argument payloads the
model oracle attaches to tool-use blocks (payloads that do not match a
handler's input struct remain representable). -/
inductive Json
  | null
  | bool (b : Bool)
  | num (n : Int)
  | str (s : String)
  | arr (xs : List Json)
  | obj (fields : List (String × Json))

/-- One content block of an assistant message, as switched on in `Agent.Run`
(src/main.go): a text block, or a tool-use block with its id, tool name and
raw arguments. -/
inductive Segment
  | text (s : String)
  | toolUse (id name : String) (args : Json)

/-- One `tool_result` content block, as built by
`anthropic.NewToolResultBlock(id, content, isError)`. -/
structure ToolResult where
  id : String
  content : String
  isError : Bool
deriving DecidableEq

/-- One turn of the conversation, in the spec's data model; the
`toolResults` turn is the user-role message `Agent.Run` assembles from the
collected tool results. -/
inductive Turn
  | user (s : String)
  | assistant (segs : List Segment)
  | toolResults (rs : List ToolResult)

/-- Outcome of one tool handler invocation (`ToolDefinition.Function`): a
returned string, a returned error, or a Go panic escaping the handler. -/
inductive HandlerOutcome
  | ok (s : String)
  | err (s : String)
  | panics (msg : String)

/-- A registry entry (`ToolDefinition`, src/main.go).  The reflection-built
`InputSchema` is only sent to the model oracle, so it is outside the
model. -/
structure ToolDef where
  name : String
  description : String
  fn : Json → HandlerOutcome

/-- Result of `Agent.executeTool`: either the `tool_result` block it
returns, or a panic propagating out of the handler (and hence out of
`executeTool`, which installs no recover). -/
inductive DispatchOutcome
  | result (r : ToolResult)
  | panicked (msg : String)

/-- Model of `Agent.executeTool` (src/main.go): linear registry lookup by
name; a miss yields the fixed `tool not found` error block; otherwise the
handler runs, and its string or error is wrapped into a `tool_result` block
carrying the request's id. -/
def executeTool (tools : List ToolDef) (id name : String) (input : Json) :
    DispatchOutcome :=
  match tools.find? (fun t => t.name == name) with
  | none => .result ⟨id, "tool not found", true⟩
  | some t =>
    match t.fn input with
    | .ok s => .result ⟨id, s, false⟩
    | .err e => .result ⟨id, e, true⟩
    | .panics m => .panicked m

/-- The tool-use requests of an assistant message, in order. -/
def toolUses : List Segment → List (String × String × Json)
  | [] => []
  | .text _ :: rest => toolUses rest
  | .toolUse id n args :: rest => (id, n, args) :: toolUses rest

/-- Whether an assistant message contains at least one tool-use block. -/
def hasToolUse : List Segment → Bool
  | [] => false
  | .text _ :: rest => hasToolUse rest
  | .toolUse _ _ _ :: _ => true

/-- Model of the dispatch loop in `Agent.Run`: each `tool_use` block is
dispatched in order and its result collected; a handler panic crashes the
program, yielding `none`. -/
def dispatchAll (tools : List ToolDef) : List Segment → Option (List ToolResult)
  | [] => some []
  | .text _ :: rest => dispatchAll tools rest
  | .toolUse id n args :: rest =>
    match executeTool tools id n args with
    | .panicked _ => none
    | .result r => (dispatchAll tools rest).map (fun rs => r :: rs)

/-- State of the `Agent.Run` loop: the conversation so far plus the
`readUserInput` flag. -/
structure AgentState where
  conv : List Turn
  readUserInput : Bool

/-- One iteration of the `Agent.Run` loop body (src/main.go): when
`readUserInput` is set, read a line and append a `user` turn; call
inference, obtaining `msg`; append the `assistant` turn; dispatch its tool
uses in order; with no collected results set `readUserInput`, otherwise
append the results as a `toolResults` turn and clear it.  `input` is the
operator's line and `msg` the oracle's reply for this iteration; `none`
means a handler panic crashed the process. -/
def iterate (tools : List ToolDef) (st : AgentState) (input : String)
    (msg : List Segment) : Option AgentState :=
  match dispatchAll tools msg with
  | none => none
  | some results =>
    if results.length = 0 then
      some ⟨(if st.readUserInput then st.conv ++ [Turn.user input] else st.conv)
        ++ [Turn.assistant msg], true⟩
    else
      some ⟨((if st.readUserInput then st.conv ++ [Turn.user input] else st.conv)
        ++ [Turn.assistant msg]) ++ [Turn.toolResults results], false⟩

/-- States reachable by the `Agent.Run` loop from the empty conversation
(the loop can also stop at any reachable state: end of input terminates it
and an inference failure aborts it). -/
inductive Reachable (tools : List ToolDef) : AgentState → Prop
  | init : Reachable tools ⟨[], true⟩
  | step : ∀ (st st' : AgentState) (input : String) (msg : List Segment),
      Reachable tools st → iterate tools st input msg = some st' →
      Reachable tools st'

/-- Adjacency discipline of the conversation: no `user` turn directly after
a `user` turn, and a `toolResults` turn only directly after an `assistant`
turn with at least one tool-use block. -/
def okPair : Turn → Turn → Bool
  | .user _, .user _ => false
  | .assistant segs, .toolResults _ => hasToolUse segs
  | .user _, .toolResults _ => false
  | .toolResults _, .toolResults _ => false
  | _, _ => true

/-- The C1 conversation invariant: the first turn is not a `toolResults`
turn, and every adjacent pair of turns respects `okPair`. -/
def goodConv (conv : List Turn) : Prop :=
  (∀ rs, conv.head? ≠ some (Turn.toolResults rs)) ∧
  List.Chain' (fun a b => okPair a b = true) conv

/-- Strengthened loop invariant: the conversation is well-formed and, when
the loop is about to read user input, the conversation is empty or ends
with an assistant turn. -/
def LoopInv (st : AgentState) : Prop :=
  goodConv st.conv ∧
  (st.readUserInput = true →
    st.conv = [] ∨ ∃ segs, st.conv.getLast? = some (Turn.assistant segs))

/-- A one-tool registry used to instantiate the loop theorems on concrete
runs. -/
def demoTools : List ToolDef :=
  [⟨"greet", "returns a fixed greeting", fun _ => .ok "hello"⟩]

/-- Go `json.Unmarshal` of one string field into a one-field struct: the
payload must be a JSON object; a missing field or a JSON null leaves the
zero value `""`; a present field of any other non-string type is a type
error.  (Duplicate keys resolve to the first occurrence and field matching
is case-sensitive in the model.) -/
def unmarshalStrField (field : String) (j : Json) : Except String String :=
  match j with
  | .obj fields =>
    match fields.lookup field with
    | none => .ok ""
    | some .null => .ok ""
    | some (.str s) => .ok s
    | some _ => .error ("json: cannot unmarshal into field " ++ field)
  | _ => .error "json: cannot unmarshal payload"

/-- Model of the `ReadFile` tool handler (src/main.go): a failed unmarshal
panics (`panic(err)` in the source); a missing file returns the read error;
otherwise the file contents are returned. -/
def readFileFn (fs : FS) (input : Json) : HandlerOutcome :=
  match unmarshalStrField "path" input with
  | .error e => .panics e
  | .ok p =>
    match fs p with
    | none => .err ("open " ++ p ++ ": no such file or directory")
    | some content => .ok (String.mk content)

/-- JSON marshalling of the collected slice of relative paths, as
`json.Marshal(files)` renders it (modulo Go's escaping of special
characters and its `null` rendering of a nil slice, which the model
omits). -/
def marshalStrings (xs : List String) : String :=
  "[" ++ String.intercalate "," (xs.map (fun s => "\"" ++ s ++ "\"")) ++ "]"

/-- Model of the `ListFiles` tool handler (src/main.go): a failed unmarshal
panics (`panic(err)` in the source); otherwise the walk result is
marshalled and returned. -/
def listFilesFn (resolve : String → Option (List (List Char × FNode)))
    (input : Json) : HandlerOutcome :=
  match unmarshalStrField "path" input with
  | .error e => .panics e
  | .ok p =>
    match ListFiles resolve p with
    | .error e => .err e
    | .ok files => .ok (marshalStrings (files.map String.mk))

/-- Go `json.Unmarshal` into `EditFileInput`: all three string fields
decoded from the same object. -/
def unmarshalEditFileInput (j : Json) : Except String (String × String × String) :=
  match unmarshalStrField "path" j, unmarshalStrField "old_str" j,
      unmarshalStrField "new_str" j with
  | .ok p, .ok o, .ok n => .ok (p, o, n)
  | _, _, _ => .error "json: cannot unmarshal payload"

/-- Model of the `EditFile` tool handler (src/main.go): a failed unmarshal
returns the error (no panic in this handler); otherwise the edit result for
the current filesystem snapshot is returned. -/
def editFileFn (fs : FS) (input : Json) : HandlerOutcome :=
  match unmarshalEditFileInput input with
  | .error e => .err e
  | .ok (p, o, n) =>
    match (EditFile fs p o.toList n.toList).1 with
    | .error e => .err e
    | .ok s => .ok s

/-- Model of the `CommandExecution` tool handler (src/main.go): a failed
unmarshal returns the error; otherwise the guardrail-checked execution
result is returned. -/
def commandExecutionFn (confirm : List Char)
    (run : List Char → String × Option String) (input : Json) :
    HandlerOutcome :=
  match unmarshalStrField "command" input with
  | .error e => .err e
  | .ok c =>
    match (CommandExecution confirm run c.toList).result with
    | .error e => .err e
    | .ok s => .ok s

/-- Model of the `FetchUrl` tool handler (src/main.go): a failed unmarshal
returns the error; an empty url is rejected; the network fetch plus HTML
text extraction is abstracted as the oracle `web`. -/
def fetchUrlFn (web : String → Except String String) (input : Json) :
    HandlerOutcome :=
  match unmarshalStrField "url" input with
  | .error e => .err e
  | .ok u =>
    if u = "" then .err "url cannot be empty"
    else
      match web u with
      | .error e => .err e
      | .ok s => .ok s

/-- The five-tool registry `main` constructs (src/main.go), parameterised by
the ambient world: filesystem, directory resolver, operator confirmation,
shell runner, and web oracle.  Each handler is modelled by the value it
returns against that world snapshot. -/
def agentTools (fs : FS) (resolve : String → Option (List (List Char × FNode)))
    (confirm : List Char) (run : List Char → String × Option String)
    (web : String → Except String String) : List ToolDef :=
  [⟨"read_file", "Read the contents of a given relative file path.",
      readFileFn fs⟩,
    ⟨"list_files", "List files and directories at a given relative path.",
      listFilesFn resolve⟩,
    ⟨"edit_file", "Make edits to a text file.", editFileFn fs⟩,
    ⟨"command_execution", "Execute commands in Bash.",
      commandExecutionFn confirm run⟩,
    ⟨"fetch_url", "Fetch the contents of a URL.", fetchUrlFn web⟩]

theorem isPre_iff (p s : List Char) : isPre p s = true ↔ ∃ t, s = p ++ t := by
  induction p generalizing s with
  | nil => simp [isPre]
  | cons a as ih =>
    cases s with
    | nil => simp [isPre]
    | cons b bs =>
      simp only [isPre, Bool.and_eq_true, beq_iff_eq]
      constructor
      · rintro ⟨rfl, h⟩
        obtain ⟨t, rfl⟩ := (ih bs).mp h
        exact ⟨t, rfl⟩
      · rintro ⟨t, h⟩
        cases h
        exact ⟨rfl, (ih _).mpr ⟨t, rfl⟩⟩

theorem isPre_length_le (p s : List Char) (h : isPre p s = true) :
    p.length ≤ s.length := by
  obtain ⟨t, rfl⟩ := (isPre_iff p s).mp h
  simp

theorem containsSub_iff (pat s : List Char) :
    containsSub pat s = true ↔ OccursIn pat s := by
  induction s with
  | nil =>
    simp only [containsSub, isPre_iff, OccursIn]
    constructor
    · rintro ⟨t, h⟩
      exact ⟨[], t, by simpa using h⟩
    · rintro ⟨a, b, h⟩
      rw [List.append_assoc] at h
      obtain ⟨ha, hpb⟩ := List.append_eq_nil.mp h.symm
      obtain ⟨hp, hb⟩ := List.append_eq_nil.mp hpb
      exact ⟨[], by simp [hp]⟩
  | cons c rest ih =>
    simp only [containsSub, Bool.or_eq_true, isPre_iff, ih, OccursIn]
    constructor
    · rintro (⟨t, h⟩ | ⟨a, b, h⟩)
      · exact ⟨[], t, by simpa using h⟩
      · exact ⟨c :: a, b, by simp [h]⟩
    · rintro ⟨a, b, h⟩
      cases a with
      | nil => exact Or.inl ⟨b, by simpa using h⟩
      | cons x xs =>
        simp only [List.cons_append] at h
        cases h
        exact Or.inr ⟨xs, b, rfl⟩

theorem replaceAll_nil (old new : List Char) (ho : old ≠ []) :
    replaceAll [] old new = [] := by
  rw [replaceAll]
  simp [ho]

theorem replaceAll_cons_pos (c : Char) (rest old new : List Char) (ho : old ≠ [])
    (hp : isPre old (c :: rest) = true) :
    replaceAll (c :: rest) old new
      = new ++ replaceAll (List.drop old.length (c :: rest)) old new := by
  rw [replaceAll]
  simp [ho, hp]

theorem replaceAll_cons_neg (c : Char) (rest old new : List Char) (ho : old ≠ [])
    (hp : isPre old (c :: rest) = false) :
    replaceAll (c :: rest) old new = c :: replaceAll rest old new := by
  rw [replaceAll]
  simp [ho, hp]

theorem countOcc_nil (old : List Char) : countOcc [] old = 0 := by
  rw [countOcc]
  split <;> rfl

theorem countOcc_cons_pos (c : Char) (rest old : List Char) (ho : old ≠ [])
    (hp : isPre old (c :: rest) = true) :
    countOcc (c :: rest) old = 1 + countOcc (List.drop old.length (c :: rest)) old := by
  rw [countOcc]
  simp [ho, hp]

theorem countOcc_cons_neg (c : Char) (rest old : List Char) (ho : old ≠ [])
    (hp : isPre old (c :: rest) = false) :
    countOcc (c :: rest) old = countOcc rest old := by
  rw [countOcc]
  simp [ho, hp]

theorem not_occurs_cons {old : List Char} {c : Char} {rest : List Char}
    (h : ¬ OccursIn old (c :: rest)) :
    isPre old (c :: rest) = false ∧ ¬ OccursIn old rest := by
  constructor
  · by_contra hp
    rw [Bool.not_eq_false, isPre_iff] at hp
    obtain ⟨t, ht⟩ := hp
    exact h ⟨[], t, by simpa using ht⟩
  · rintro ⟨a, b, hab⟩
    exact h ⟨c :: a, b, by simp [hab]⟩

/-- If the pattern does not occur in the content, `strings.Replace` leaves the
content unchanged. -/
theorem replaceAll_of_not_occurs (s old new : List Char) (ho : old ≠ [])
    (h : ¬ OccursIn old s) : replaceAll s old new = s := by
  induction s with
  | nil => exact replaceAll_nil old new ho
  | cons c rest ih =>
    obtain ⟨h1, h2⟩ := not_occurs_cons h
    rw [replaceAll_cons_neg c rest old new ho h1, ih h2]

theorem countOcc_ge_one (old b : List Char) (ho : old ≠ []) :
    ∀ a : List Char, 1 ≤ countOcc (a ++ old ++ b) old := by
  intro a
  induction a with
  | nil =>
    obtain ⟨o, os, rfl⟩ : ∃ o os, old = o :: os := by
      cases old with
      | nil => exact absurd rfl ho
      | cons o os => exact ⟨o, os, rfl⟩
    have hp : isPre (o :: os) ((o :: os) ++ b) = true :=
      (isPre_iff _ _).mpr ⟨b, rfl⟩
    simp only [List.nil_append]
    rw [List.cons_append, countOcc_cons_pos o (os ++ b) (o :: os) ho (by simpa using hp)]
    omega
  | cons x xs ih =>
    rw [List.cons_append, List.cons_append]
    by_cases hp : isPre old (x :: (xs ++ old ++ b)) = true
    · rw [countOcc_cons_pos x (xs ++ old ++ b) old ho hp]
      omega
    · rw [countOcc_cons_neg x (xs ++ old ++ b) old ho (by simpa using hp)]
      simpa using ih

/-- Length bookkeeping for `strings.Replace`: each of the `countOcc`
occurrences trades `old.length` characters for `new.length` characters. -/
theorem replaceAll_length (old new : List Char) (ho : old ≠ []) :
    ∀ n s, s.length ≤ n →
      (replaceAll s old new).length + countOcc s old * old.length
        = s.length + countOcc s old * new.length := by
  intro n
  induction n with
  | zero =>
    intro s hs
    rw [List.length_eq_zero.mp (Nat.le_zero.mp hs)]
    rw [replaceAll_nil old new ho, countOcc_nil]
    simp
  | succ n ih =>
    intro s hs
    cases s with
    | nil =>
      rw [replaceAll_nil old new ho, countOcc_nil]
      simp
    | cons c rest =>
      by_cases hp : isPre old (c :: rest) = true
      · rw [replaceAll_cons_pos c rest old new ho hp,
          countOcc_cons_pos c rest old ho hp]
        have hone : 1 ≤ old.length := List.length_pos.mpr ho
        have hlen : old.length ≤ rest.length + 1 := by
          have := isPre_length_le _ _ hp
          simpa using this
        simp only [List.length_cons] at hs
        have hih := ih (List.drop old.length (c :: rest))
          (by simp only [List.length_drop, List.length_cons]; omega)
        simp only [List.length_append, List.length_drop, List.length_cons,
          Nat.add_mul, Nat.one_mul] at hih ⊢
        omega
      · rw [replaceAll_cons_neg c rest old new ho (by simpa using hp),
          countOcc_cons_neg c rest old ho (by simpa using hp)]
        have := ih rest (by simp only [List.length_cons] at hs; omega)
        simp only [List.length_cons]
        omega

theorem replaceAll_ne_of_occurs_len_eq (old new : List Char) (ho : old ≠ [])
    (hne : old ≠ new) (hlen : old.length = new.length) :
    ∀ s, OccursIn old s → replaceAll s old new ≠ s := by
  intro s
  induction s with
  | nil =>
    rintro ⟨a, b, hab⟩
    rw [List.append_assoc] at hab
    obtain ⟨ha, hob⟩ := List.append_eq_nil.mp hab.symm
    exact absurd (List.append_eq_nil.mp hob).1 ho
  | cons c rest ih =>
    intro h heq
    by_cases hp : isPre old (c :: rest) = true
    · rw [replaceAll_cons_pos c rest old new ho hp] at heq
      obtain ⟨t, ht⟩ := (isPre_iff _ _).mp hp
      rw [ht] at heq
      have h1 := congrArg (List.take new.length) heq
      rw [List.take_left, ← hlen, List.take_left] at h1
      exact hne h1.symm
    · rw [replaceAll_cons_neg c rest old new ho (by simpa using hp)] at heq
      rw [List.cons.injEq] at heq
      obtain ⟨a, b, hab⟩ := h
      cases a with
      | nil =>
        exact hp ((isPre_iff _ _).mpr ⟨b, by simpa using hab⟩)
      | cons x xs =>
        simp only [List.cons_append, List.cons.injEq] at hab
        exact ih ⟨xs, b, hab.2⟩ heq.2

/-- If the (nonempty) pattern occurs in the content and differs from the
replacement, `strings.Replace` changes the content. -/
theorem replaceAll_ne_of_occurs (s old new : List Char) (ho : old ≠ [])
    (hne : old ≠ new) (h : OccursIn old s) : replaceAll s old new ≠ s := by
  by_cases hlen : old.length = new.length
  · exact replaceAll_ne_of_occurs_len_eq old new ho hne hlen s h
  · intro heq
    have hL := replaceAll_length old new ho s.length s (le_refl _)
    rw [heq] at hL
    obtain ⟨a, b, rfl⟩ := h
    have hcnt : 1 ≤ countOcc (a ++ old ++ b) old := countOcc_ge_one old b ho a
    have : countOcc (a ++ old ++ b) old * old.length
        = countOcc (a ++ old ++ b) old * new.length := by omega
    exact hlen (Nat.eq_of_mul_eq_mul_left (by omega) this)

/-- C5 — the claim as frozen is refuted: the claim lists the bare words
`rm` and `kill` as denylist substrings, but the source denylist contains
`"rm "` and `"kill "` with a trailing space.  The command `confirm` contains
the substring `rm` yet passes every guardrail and is executed (here with
operator confirmation `yes`). -/
theorem commandExecution_denylist_counterexample :
    containsSub "rm".toList ("confirm".toList.map Char.toLower) = true ∧
    (CommandExecution "yes".toList (fun _ => ("", none)) "confirm".toList).executed
      = true := by
  constructor
  · decide
  · decide

/-- C5 (amended) — with the denylist as in the source (`"rm "` and `"kill "`
carrying their trailing space), every command that is empty, contains a
denylist substring case-insensitively, contains a directory-change
invocation (`"cd "`), exceeds 256 characters, or contains `"/"` or `".."`,
is rejected with an error and is never executed. -/
theorem commandExecution_guardrails (confirm : List Char)
    (run : List Char → String × Option String) (cmd : List Char)
    (h : cmd = []
      ∨ (∃ d ∈ disallowed, containsSub d (cmd.map Char.toLower) = true)
      ∨ containsSub "cd ".toList (cmd.map Char.toLower) = true
      ∨ 256 < cmd.length
      ∨ containsSub "/".toList (cmd.map Char.toLower) = true
      ∨ containsSub "..".toList (cmd.map Char.toLower) = true) :
    (CommandExecution confirm run cmd).executed = false ∧
    ∃ e, (CommandExecution confirm run cmd).result = .error e := by
  unfold CommandExecution
  split
  · exact ⟨rfl, _, rfl⟩
  split
  · exact ⟨rfl, _, rfl⟩
  split
  · exact ⟨rfl, _, rfl⟩
  split
  · exact ⟨rfl, _, rfl⟩
  split
  · exact ⟨rfl, _, rfl⟩
  split
  · exact ⟨rfl, _, rfl⟩
  exfalso
  rename_i hne hden hcd hlen hpath hconf
  rw [Bool.or_eq_true, not_or] at hpath
  rcases h with h | ⟨d, hd, hc⟩ | h | h | h | h
  · exact hne h
  · exact hden (List.any_eq_true.mpr ⟨d, hd, hc⟩)
  · exact hcd h
  · exact hlen h
  · exact hpath.1 h
  · exact hpath.2 h

/-- Witness for the amended C5: the command `cat ../secret` contains the
traversal token `..`, so it is rejected and not executed. -/
theorem commandExecution_guardrails_witness :
    (CommandExecution "yes".toList (fun _ => ("", none)) "cat ../secret".toList).executed
        = false ∧
    ∃ e, (CommandExecution "yes".toList (fun _ => ("", none)) "cat ../secret".toList).result
        = .error e :=
  commandExecution_guardrails "yes".toList (fun _ => ("", none)) "cat ../secret".toList
    (Or.inr (Or.inr (Or.inr (Or.inr (Or.inr (by decide))))))

/-- C6 — the claim as frozen is refuted: the source lowercases the operator's
response before comparing it with `yes`, so the response `YES` — a response
other than `yes` — still executes the command rather than cancelling. -/
theorem commandExecution_confirmation_counterexample :
    (CommandExecution "YES".toList (fun _ => ("hello\n", none))
        "echo hello".toList).executed = true ∧
    (CommandExecution "YES".toList (fun _ => ("hello\n", none))
        "echo hello".toList).result = .ok "hello\n" := by
  constructor
  · decide
  · decide

/-- C6 (amended) — for every command passing all guardrail checks, the tool
prompts for confirmation; if the response is case-insensitively `yes` the
command is executed (and on a zero exit its combined output is returned),
and for any other response the tool returns a cancellation error and does
not execute. -/
theorem commandExecution_confirmation (confirm : List Char)
    (run : List Char → String × Option String) (cmd : List Char)
    (hne : cmd ≠ [])
    (hden : disallowed.any (fun d => containsSub d (cmd.map Char.toLower)) = false)
    (hcd : containsSub "cd ".toList (cmd.map Char.toLower) = false)
    (hlen : cmd.length ≤ 256)
    (hsl : containsSub "/".toList (cmd.map Char.toLower) = false)
    (hdd : containsSub "..".toList (cmd.map Char.toLower) = false) :
    (confirm.map Char.toLower = "yes".toList →
      (CommandExecution confirm run cmd).executed = true ∧
      ∀ out, run cmd = (out, none) →
        (CommandExecution confirm run cmd).result = .ok out)
    ∧ (confirm.map Char.toLower ≠ "yes".toList →
      (CommandExecution confirm run cmd).executed = false ∧
      (CommandExecution confirm run cmd).result
        = .error "command execution cancelled by user") := by
  have h256 : ¬ 256 < cmd.length := by omega
  have key : CommandExecution confirm run cmd
      = if confirm.map Char.toLower ≠ "yes".toList then
          ⟨.error "command execution cancelled by user", false⟩
        else
          match run cmd with
          | (output, none) => ⟨.ok output, true⟩
          | (output, some e) =>
            ⟨.error ("command execution failed: " ++ e ++ "\nOutput: " ++ output),
              true⟩ := by
    unfold CommandExecution
    rw [if_neg hne, if_neg (by simp [hden]), if_neg (by simpa using hcd),
      if_neg h256,
      if_neg (by simp; exact ⟨by simpa using hsl, by simpa using hdd⟩)]
  constructor
  · intro hyes
    have hnn : ¬ (confirm.map Char.toLower ≠ "yes".toList) := by simp [hyes]
    constructor
    · rw [key, if_neg hnn]
      rcases hrun : run cmd with ⟨out, err⟩
      cases err <;> simp [hrun]
    · intro out hout
      rw [key, if_neg hnn, hout]
  · intro hno
    rw [key, if_pos hno]
    exact ⟨rfl, rfl⟩

/-- Witness for the amended C6: `echo hello` passes the guardrails; with
confirmation `yes` it executes and returns `hello\n`. -/
theorem commandExecution_confirmation_witness :
    (CommandExecution "yes".toList (fun _ => ("hello\n", none))
        "echo hello".toList).executed = true ∧
    (CommandExecution "yes".toList (fun _ => ("hello\n", none))
        "echo hello".toList).result = .ok "hello\n" := by
  have h := commandExecution_confirmation "yes".toList
    (fun _ => ("hello\n", none)) "echo hello".toList
    (by decide) (by decide) (by decide) (by decide) (by decide) (by decide)
  have h2 := h.1 (by decide)
  exact ⟨h2.1, h2.2 "hello\n" rfl⟩

/-- C7 — the claim as frozen is refuted: with `new_str = ""` (so that
`old_str = new_str`), invoking the tool on the non-existent path `x` does
not create the file; it is rejected with `invalid input parameters` before
the filesystem is touched. -/
theorem editFile_create_counterexample :
    (EditFile (fun _ => none) "x" [] []).1 = .error "invalid input parameters" ∧
    (EditFile (fun _ => none) "x" [] []).2 "x" = none := by
  constructor
  · decide
  · decide

/-- C7 (amended) — for every non-existent, nonempty path and every nonempty
`new_str`, invoking the tool with `old_str = ""` creates the file at that
path with contents `new_str` and returns the creation success message. -/
theorem editFile_creates (fs : FS) (path : String) (new : List Char)
    (h1 : fs path = none) (h2 : path ≠ "") (h3 : new ≠ []) :
    (EditFile fs path [] new).1 = .ok ("Successfully created file " ++ path) ∧
    (EditFile fs path [] new).2 path = some new := by
  have hcond : ¬ (path = "" ∨ ([] : List Char) = new) := by
    rintro (h | h)
    · exact h2 h
    · exact h3 h.symm
  unfold EditFile
  rw [if_neg hcond, h1, if_pos rfl]
  unfold createNewFile
  exact ⟨rfl, by simp⟩

/-- Witness for the amended C7 at a concrete non-existent path. -/
theorem editFile_creates_witness :
    (EditFile (fun _ => none) "notes.txt" [] "hi".toList).1
        = .ok ("Successfully created file " ++ "notes.txt") ∧
    (EditFile (fun _ => none) "notes.txt" [] "hi".toList).2 "notes.txt"
        = some "hi".toList :=
  editFile_creates (fun _ => none) "notes.txt" "hi".toList rfl (by decide)
    (by decide)

theorem EditFile_none (fs : FS) (path : String) (old new : List Char)
    (h0 : ¬ (path = "" ∨ old = new)) (hfs : fs path = none) :
    EditFile fs path old new =
      if old = [] then createNewFile fs path new
      else (.error ("open " ++ path ++ ": no such file or directory"), fs) := by
  unfold EditFile
  rw [if_neg h0, hfs]

theorem EditFile_some (fs : FS) (path : String) (old new content : List Char)
    (h0 : ¬ (path = "" ∨ old = new)) (hfs : fs path = some content) :
    EditFile fs path old new =
      if replaceAll content old new = content ∧ old ≠ [] then
        (.error "old_str not found in file", fs)
      else
        (.ok "OK",
          fun p => if p = path then some (replaceAll content old new) else fs p) := by
  unfold EditFile
  rw [if_neg h0, hfs]

/-- C8 — when `old_str = new_str`, or when `old_str` is nonempty and does not
occur in the existing file's content, `EditFile` returns an error and leaves
the filesystem unchanged (in the `old_str = new_str` case the rejection
happens before any filesystem access in the source). -/
theorem editFile_error_preserves_fs (fs : FS) (path : String) (old new : List Char)
    (h : old = new
      ∨ (old ≠ [] ∧ ∀ content, fs path = some content → ¬ OccursIn old content)) :
    (∃ e, (EditFile fs path old new).1 = .error e) ∧
    ∀ p, (EditFile fs path old new).2 p = fs p := by
  by_cases h0 : path = "" ∨ old = new
  · unfold EditFile
    rw [if_pos h0]
    exact ⟨⟨_, rfl⟩, fun p => rfl⟩
  · rcases h with h | ⟨hne, hocc⟩
    · exact absurd (Or.inr h) h0
    · obtain hfs | ⟨content, hfs⟩ : fs path = none ∨ ∃ c, fs path = some c := by
        cases fs path with
        | none => exact Or.inl rfl
        | some c => exact Or.inr ⟨c, rfl⟩
      · rw [EditFile_none fs path old new h0 hfs, if_neg hne]
        exact ⟨⟨_, rfl⟩, fun p => rfl⟩
      · have heq : replaceAll content old new = content :=
          replaceAll_of_not_occurs content old new hne (hocc content hfs)
        rw [EditFile_some fs path old new content h0 hfs, if_pos ⟨heq, hne⟩]
        exact ⟨⟨_, rfl⟩, fun p => rfl⟩

/-- Witness for C8: `xyz` does not occur in `hello world`, so the edit is
rejected and the file keeps its content. -/
theorem editFile_error_preserves_fs_witness :
    (∃ e, (EditFile (fun p => if p = "a.txt" then some "hello world".toList else none)
        "a.txt" "xyz".toList "q".toList).1 = .error e) ∧
    ∀ p, (EditFile (fun p => if p = "a.txt" then some "hello world".toList else none)
        "a.txt" "xyz".toList "q".toList).2 p
      = (fun p => if p = "a.txt" then some "hello world".toList else none) p :=
  editFile_error_preserves_fs _ "a.txt" "xyz".toList "q".toList
    (Or.inr ⟨by decide, by
      intro content hc
      injection hc with h
      subst h
      exact fun hoc => absurd ((containsSub_iff _ _).mpr hoc) (by decide)⟩)

/-- C10 — the claim as frozen is refuted at `old_str = new_str`: with the
file `b.txt` containing `aaa` and the occurring `old_str = "a"` equal to
`new_str`, the tool returns `invalid input parameters` instead of success. -/
theorem editFile_replace_counterexample :
    (EditFile (fun p => if p = "b.txt" then some "aaa".toList else none)
        "b.txt" "a".toList "a".toList).1 = .error "invalid input parameters" ∧
    OccursIn "a".toList "aaa".toList := by
  constructor
  · decide
  · exact (containsSub_iff _ _).mp (by decide)

/-- C10 (amended) — for every existing file (nonempty path) and every
nonempty `old_str` occurring in its content with `new_str ≠ old_str`, the
tool replaces every occurrence of `old_str` by `new_str` (the semantics of
`strings.Replace` with count `-1`), writes the result back, and returns
`OK`. -/
theorem editFile_replaces_all (fs : FS) (path : String) (old new content : List Char)
    (hc : fs path = some content) (hp : path ≠ "") (ho : old ≠ [])
    (hne : old ≠ new) (hocc : OccursIn old content) :
    (EditFile fs path old new).1 = .ok "OK" ∧
    (EditFile fs path old new).2 path = some (replaceAll content old new) := by
  have h0 : ¬ (path = "" ∨ old = new) := by
    rintro (h | h)
    · exact hp h
    · exact hne h
  have hchg : ¬ (replaceAll content old new = content ∧ old ≠ []) := by
    rintro ⟨he, -⟩
    exact replaceAll_ne_of_occurs content old new ho hne hocc he
  rw [EditFile_some fs path old new content h0 hc, if_neg hchg]
  exact ⟨rfl, by simp⟩

/-- Witness for the amended C10 on a content with two occurrences: both
copies of `a` in `aba` are replaced, giving `ccbcc`. -/
theorem editFile_replaces_all_witness :
    (EditFile (fun p => if p = "c.txt" then some "aba".toList else none)
        "c.txt" "a".toList "cc".toList).1 = .ok "OK" ∧
    (EditFile (fun p => if p = "c.txt" then some "aba".toList else none)
        "c.txt" "a".toList "cc".toList).2 "c.txt" = some "ccbcc".toList := by
  have h := editFile_replaces_all
    (fun p => if p = "c.txt" then some "aba".toList else none)
    "c.txt" "a".toList "cc".toList "aba".toList
    (by decide) (by decide) (by decide) (by decide)
    ((containsSub_iff _ _).mp (by decide))
  have e1 : replaceAll "aba".toList "a".toList "cc".toList = "ccbcc".toList := by
    show replaceAll ('a' :: ['b', 'a']) ['a'] ['c', 'c'] = _
    rw [replaceAll_cons_pos 'a' ['b', 'a'] ['a'] ['c', 'c'] (by decide) (by decide)]
    show ['c', 'c'] ++ replaceAll ('b' :: ['a']) ['a'] ['c', 'c'] = _
    rw [replaceAll_cons_neg 'b' ['a'] ['a'] ['c', 'c'] (by decide) (by decide)]
    show ['c', 'c'] ++ 'b' :: replaceAll ('a' :: []) ['a'] ['c', 'c'] = _
    rw [replaceAll_cons_pos 'a' [] ['a'] ['c', 'c'] (by decide) (by decide)]
    show ['c', 'c'] ++ 'b' :: (['c', 'c'] ++ replaceAll [] ['a'] ['c', 'c']) = _
    rw [replaceAll_nil ['a'] ['c', 'c'] (by decide)]
    decide
  exact ⟨h.1, by rw [h.2, e1]⟩

/-- C9 — the claim as frozen is refuted: `ListFiles` performs a recursive
`filepath.Walk`, so on a current directory containing `a/` with a child
`a/b` it returns `[a/, a/b]`, not the immediate entries `[a/]`. -/
theorem listFiles_counterexample :
    ListFiles (fun _ =>
        some [("a".toList, FNode.dir [("b".toList, FNode.file)])]) ""
      ≠ .ok (immediateEntries
        [("a".toList, FNode.dir [("b".toList, FNode.file)])]) := by
  simp [ListFiles, walkFrom, immediateEntries]

theorem immediateEntries_sublist_walkFrom :
    ∀ (es : List (List Char × FNode)) (pre : List Char),
      List.Sublist ((immediateEntries es).map (fun n => pre ++ n))
        (walkFrom pre es) := by
  intro es
  induction es with
  | nil =>
    intro pre
    simp [immediateEntries, walkFrom]
  | cons e rest ih =>
    intro pre
    rcases e with ⟨n, f | cs⟩
    · simp only [immediateEntries, walkFrom, List.map_cons]
      exact List.Sublist.cons₂ _ (ih pre)
    · simp only [immediateEntries, walkFrom, List.map_cons]
      rw [← List.append_assoc]
      exact List.Sublist.cons₂ _ ((ih pre).trans (List.sublist_append_right _ _))

/-- C9 (amended) — when `list_files` is dispatched with an empty path it
walks the current directory recursively and returns the relative paths of
all descendants (directories suffixed with `/`); the immediate entries
appear within that listing, in order. -/
theorem listFiles_walks_current_dir
    (resolve : String → Option (List (List Char × FNode)))
    (cwd : List (List Char × FNode)) (h : resolve "." = some cwd) :
    ListFiles resolve "" = .ok (walkFrom [] cwd) ∧
    List.Sublist (immediateEntries cwd) (walkFrom [] cwd) := by
  constructor
  · unfold ListFiles
    rw [if_pos rfl, h]
  · have hs := immediateEntries_sublist_walkFrom cwd []
    simpa using hs

/-- Witness for the amended C9 on a concrete two-entry current directory. -/
theorem listFiles_walks_current_dir_witness :
    ListFiles (fun _ =>
        some [("a".toList, FNode.dir [("b".toList, FNode.file)]),
          ("c".toList, FNode.file)]) ""
      = .ok ["a/".toList, "a/b".toList, "c".toList] ∧
    List.Sublist
      (immediateEntries [("a".toList, FNode.dir [("b".toList, FNode.file)]),
        ("c".toList, FNode.file)])
      (walkFrom [] [("a".toList, FNode.dir [("b".toList, FNode.file)]),
        ("c".toList, FNode.file)]) := by
  have h := listFiles_walks_current_dir
    (fun _ =>
      some [("a".toList, FNode.dir [("b".toList, FNode.file)]),
        ("c".toList, FNode.file)])
    [("a".toList, FNode.dir [("b".toList, FNode.file)]),
      ("c".toList, FNode.file)] rfl
  refine ⟨?_, h.2⟩
  rw [h.1]
  simp [walkFrom]

theorem okPair_assistant (t : Turn) (segs : List Segment) :
    okPair t (Turn.assistant segs) = true := by
  cases t <;> rfl

theorem executeTool_result_id (tools : List ToolDef) (id name : String)
    (input : Json) (r : ToolResult)
    (h : executeTool tools id name input = .result r) : r.id = id := by
  unfold executeTool at h
  rcases hf : tools.find? (fun t => t.name == name) with _ | t
  · simp only [hf] at h
    cases h
    rfl
  · simp only [hf] at h
    rcases hfn : t.fn input with s | e | m <;> simp only [hfn] at h <;>
      first
      | (cases h; rfl)
      | cases h

theorem dispatchAll_ids (tools : List ToolDef) :
    ∀ segs results, dispatchAll tools segs = some results →
      results.map ToolResult.id = (toolUses segs).map (fun u => u.1) := by
  intro segs
  induction segs with
  | nil =>
    intro results h
    cases h
    rfl
  | cons s rest ih =>
    intro results h
    cases s with
    | text t => exact ih results h
    | toolUse id n args =>
      simp only [dispatchAll] at h
      split at h
      · cases h
      · rename_i r he
        rcases hd : dispatchAll tools rest with _ | rs
        · rw [hd] at h
          cases h
        · rw [hd] at h
          simp only [Option.map_some'] at h
          cases h
          simp only [List.map_cons, toolUses]
          rw [executeTool_result_id tools id n args r he, ih rs hd]

theorem dispatchAll_length (tools : List ToolDef) (segs : List Segment)
    (results : List ToolResult) (h : dispatchAll tools segs = some results) :
    results.length = (toolUses segs).length := by
  have hmap := congrArg List.length (dispatchAll_ids tools segs results h)
  simpa using hmap

theorem hasToolUse_of_toolUses_ne_nil :
    ∀ segs, toolUses segs ≠ [] → hasToolUse segs = true := by
  intro segs h
  induction segs with
  | nil => exact absurd rfl h
  | cons s rest ih =>
    cases s with
    | text t => exact ih (by simpa [toolUses] using h)
    | toolUse id n args => rfl

theorem goodConv_snoc (l : List Turn) (t : Turn) (hg : goodConv l)
    (hhead : l = [] → ∀ rs, t ≠ Turn.toolResults rs)
    (hpair : ∀ x, l.getLast? = some x → okPair x t = true) :
    goodConv (l ++ [t]) := by
  obtain ⟨hh, hc⟩ := hg
  constructor
  · intro rs
    cases l with
    | nil =>
      simp only [List.nil_append, List.head?_cons]
      intro he
      injection he with he2
      exact hhead rfl rs he2
    | cons a as => simpa using hh rs
  · rw [List.chain'_append]
    refine ⟨hc, List.chain'_singleton t, ?_⟩
    intro x hx y hy
    rw [Option.mem_def] at hx hy
    simp only [List.head?_cons] at hy
    cases hy
    exact hpair x hx

theorem reachable_inv (tools : List ToolDef) (st : AgentState)
    (h : Reachable tools st) : LoopInv st := by
  induction h with
  | init =>
    exact ⟨⟨fun rs => by simp, List.chain'_nil⟩, fun _ => Or.inl rfl⟩
  | step st st' input msg hr hit ih =>
    obtain ⟨hgc, hlast⟩ := ih
    unfold iterate at hit
    split at hit
    · cases hit
    · rename_i results hd
      have hgc1 : goodConv (if st.readUserInput then
          st.conv ++ [Turn.user input] else st.conv) := by
        by_cases hread : st.readUserInput = true
        · rw [if_pos (by rw [hread])]
          apply goodConv_snoc st.conv (Turn.user input) hgc
          · intro _ rs he
            exact Turn.noConfusion he
          · intro x hx
            rcases hlast hread with hnil | ⟨segs, hsegs⟩
            · rw [hnil] at hx
              cases hx
            · rw [hsegs] at hx
              injection hx with hx2
              rw [← hx2]
              rfl
        · rw [if_neg (by simpa using hread)]
          exact hgc
      have hgc2 : goodConv ((if st.readUserInput then
          st.conv ++ [Turn.user input] else st.conv) ++ [Turn.assistant msg]) := by
        apply goodConv_snoc _ (Turn.assistant msg) hgc1
        · intro _ rs he
          exact Turn.noConfusion he
        · intro x hx
          exact okPair_assistant x msg
      have hlast2 : ((if st.readUserInput then
          st.conv ++ [Turn.user input] else st.conv)
            ++ [Turn.assistant msg]).getLast? = some (Turn.assistant msg) :=
        List.getLast?_concat _
      split at hit
      · cases hit
        exact ⟨hgc2, fun _ => Or.inr ⟨msg, hlast2⟩⟩
      · rename_i hres
        cases hit
        refine ⟨?_, fun hfalse => by cases hfalse⟩
        apply goodConv_snoc _ (Turn.toolResults results) hgc2
        · intro hnil
          exact absurd hnil (by simp)
        · intro x hx
          rw [hlast2] at hx
          injection hx with hx2
          rw [← hx2]
          have hlen := dispatchAll_length tools msg results hd
          have htu : toolUses msg ≠ [] := by
            intro h0
            rw [h0] at hlen
            simp only [List.length_nil] at hlen
            exact hres hlen
          exact hasToolUse_of_toolUses_ne_nil msg htu

/-- C1 — every conversation reachable in the `Agent.Run` loop contains no
two consecutive user turns, and every tool-result turn is immediately
preceded by an assistant turn containing at least one tool-use block. -/
theorem conversation_invariant (tools : List ToolDef) (st : AgentState)
    (h : Reachable tools st) : goodConv st.conv :=
  (reachable_inv tools st h).1

/-- Witness for C1 on a concrete two-iteration run of the loop: one
tool-use round followed by a text-only reply. -/
theorem conversation_invariant_witness :
    goodConv [Turn.user "hi",
      Turn.assistant [Segment.text "t", Segment.toolUse "id1" "greet" Json.null],
      Turn.toolResults [⟨"id1", "hello", false⟩],
      Turn.assistant [Segment.text "done"]] :=
  conversation_invariant demoTools
    ⟨[Turn.user "hi",
      Turn.assistant [Segment.text "t", Segment.toolUse "id1" "greet" Json.null],
      Turn.toolResults [⟨"id1", "hello", false⟩],
      Turn.assistant [Segment.text "done"]], true⟩
    (Reachable.step
      ⟨[Turn.user "hi",
        Turn.assistant [Segment.text "t", Segment.toolUse "id1" "greet" Json.null],
        Turn.toolResults [⟨"id1", "hello", false⟩]], false⟩
      ⟨[Turn.user "hi",
        Turn.assistant [Segment.text "t", Segment.toolUse "id1" "greet" Json.null],
        Turn.toolResults [⟨"id1", "hello", false⟩],
        Turn.assistant [Segment.text "done"]], true⟩
      "" [Segment.text "done"]
      (Reachable.step ⟨[], true⟩
        ⟨[Turn.user "hi",
          Turn.assistant [Segment.text "t", Segment.toolUse "id1" "greet" Json.null],
          Turn.toolResults [⟨"id1", "hello", false⟩]], false⟩
        "hi" [Segment.text "t", Segment.toolUse "id1" "greet" Json.null]
        Reachable.init rfl)
      rfl)

/-- C2 — whenever an assistant message with at least one tool-use block is
processed without a handler panic, the tool-result turn the loop appends is
exactly the collected results: one per request, each carrying its request's
invocation id, in request order. -/
theorem toolResultTurn_matches (tools : List ToolDef) (st : AgentState)
    (input : String) (msg : List Segment) (results : List ToolResult)
    (st' : AgentState)
    (hd : dispatchAll tools msg = some results)
    (hk : toolUses msg ≠ [])
    (hit : iterate tools st input msg = some st') :
    results.length = (toolUses msg).length ∧
    results.map ToolResult.id = (toolUses msg).map (fun u => u.1) ∧
    st'.conv.getLast? = some (Turn.toolResults results) := by
  have hids := dispatchAll_ids tools msg results hd
  have hlen := dispatchAll_length tools msg results hd
  refine ⟨hlen, hids, ?_⟩
  have hres : results.length ≠ 0 := by
    intro h0
    rw [hlen] at h0
    exact hk (List.length_eq_zero.mp h0)
  unfold iterate at hit
  split at hit
  · cases hit
  · rename_i results2 hd2
    rw [hd] at hd2
    injection hd2 with hd3
    cases hd3
    rw [if_neg hres] at hit
    cases hit
    exact List.getLast?_concat _

/-- Witness for C2 on a concrete assistant message with two tool uses, one
hitting the registry and one missing it. -/
theorem toolResultTurn_matches_witness :
    ([⟨"a", "hello", false⟩, ⟨"b", "tool not found", true⟩] :
        List ToolResult).length
      = (toolUses [Segment.toolUse "a" "greet" Json.null,
          Segment.toolUse "b" "nope" Json.null]).length ∧
    ([⟨"a", "hello", false⟩, ⟨"b", "tool not found", true⟩] :
        List ToolResult).map ToolResult.id
      = (toolUses [Segment.toolUse "a" "greet" Json.null,
          Segment.toolUse "b" "nope" Json.null]).map (fun u => u.1) ∧
    (AgentState.mk [Turn.user "q",
        Turn.assistant [Segment.toolUse "a" "greet" Json.null,
          Segment.toolUse "b" "nope" Json.null],
        Turn.toolResults [⟨"a", "hello", false⟩, ⟨"b", "tool not found", true⟩]]
        false).conv.getLast?
      = some (Turn.toolResults
          [⟨"a", "hello", false⟩, ⟨"b", "tool not found", true⟩]) :=
  toolResultTurn_matches demoTools ⟨[], true⟩ "q"
    [Segment.toolUse "a" "greet" Json.null, Segment.toolUse "b" "nope" Json.null]
    [⟨"a", "hello", false⟩, ⟨"b", "tool not found", true⟩]
    ⟨[Turn.user "q",
      Turn.assistant [Segment.toolUse "a" "greet" Json.null,
        Segment.toolUse "b" "nope" Json.null],
      Turn.toolResults [⟨"a", "hello", false⟩, ⟨"b", "tool not found", true⟩]]
      , false⟩
    rfl (by simp [toolUses]) rfl

/-- C4 — dispatching a tool name absent from the registry returns the fixed
`tool not found` error block carrying the request's id, and the loop
proceeds: an iteration whose assistant message requests only that unknown
tool still yields a successor state instead of crashing. -/
theorem dispatch_unknown_tool (tools : List ToolDef) (id name : String)
    (input : Json) (h : ∀ t ∈ tools, t.name ≠ name) :
    executeTool tools id name input = .result ⟨id, "tool not found", true⟩ ∧
    ∀ st inp,
      (iterate tools st inp [Segment.toolUse id name input]).isSome = true := by
  have hf : tools.find? (fun t => t.name == name) = none := by
    rw [List.find?_eq_none]
    intro t ht
    simpa using h t ht
  have hexec : executeTool tools id name input
      = .result ⟨id, "tool not found", true⟩ := by
    unfold executeTool
    rw [hf]
  refine ⟨hexec, ?_⟩
  intro st inp
  have hda : dispatchAll tools [Segment.toolUse id name input]
      = some [⟨id, "tool not found", true⟩] := by
    simp [dispatchAll, hexec]
  unfold iterate
  rw [hda]
  rfl

/-- Witness for C4: the name `no_such_tool` misses the demo registry; the
dispatch returns the fixed error block and the loop iteration succeeds. -/
theorem dispatch_unknown_tool_witness :
    executeTool demoTools "id9" "no_such_tool" Json.null
        = .result ⟨"id9", "tool not found", true⟩ ∧
    (iterate demoTools ⟨[], true⟩ "x"
        [Segment.toolUse "id9" "no_such_tool" Json.null]).isSome = true :=
  ⟨(dispatch_unknown_tool demoTools "id9" "no_such_tool" Json.null
      (by intro t ht; simp only [demoTools, List.mem_singleton] at ht
          subst ht; decide)).1,
    (dispatch_unknown_tool demoTools "id9" "no_such_tool" Json.null
      (by intro t ht; simp only [demoTools, List.mem_singleton] at ht
          subst ht; decide)).2
      ⟨[], true⟩ "x"⟩

/-- C3 — the claim is contradicted by the code: dispatching `read_file`
with the type-mismatched arguments `{"path": 5}` reaches `panic(err)` in
`ReadFile`'s unmarshal-failure branch, and the panic propagates out of
`executeTool` (which installs no recover), so this outcome is not
represented as a ToolResult value. -/
theorem dispatch_panics_on_malformed_args :
    executeTool
      (agentTools (fun _ => none) (fun _ => none) [] (fun _ => ("", none))
        (fun _ => .error "unreachable"))
      "toolu_01" "read_file" (Json.obj [("path", Json.num 5)])
      = .panicked "json: cannot unmarshal into field path" := by
  rfl
